import Mathlib

/-!
Verification of the folder-structure tool (`cliver.py`,
class `FolderStructureGenerator`).

The traversal core of the program is shallowly embedded here:

* a pure filesystem model `FS` standing for what the `os` module reports
  about a path (`os.listdir`, `os.path.isdir`, `os.path.getsize`),
  including directories whose enumeration raises `PermissionError` or
  another exception;
* `get_structure` translating `FolderStructureGenerator.get_structure`:
  the Python function returns either the dictionary describing a
  directory or the empty dictionary `{}` at the depth cutoff, and the
  caller appends a recursive result only when it is truthy; an empty
  dictionary is the unique falsy value, so the return type is
  `Option Node`, with `none` playing the role of `{}`;
* `print_structure`, `get_summary` and the structured (JSON) export,
  translating the remaining methods of the class.

Python string/path library functions used by the source
(`os.path.basename`, `os.path.join`, `str.startswith`, `str.lower`,
string comparison, stable `list.sort` with a key) are embedded as
executable Lean functions over `List Char` with the same semantics.
-/

namespace Cliver

/-- Characters of a string, written lowercase as Python `str.lower`
does for ASCII letters (names in the claims are ASCII). -/
def pyLower (s : String) : List Char := s.data.map Char.toLower

/-- Python string `<`: lexicographic comparison by code point. -/
def charListLt : List Char → List Char → Bool
  | _, [] => false
  | [], _ :: _ => true
  | a :: as, b :: bs => a < b || (a == b && charListLt as bs)

/-- Characters after the last `/`, i.e. `posixpath.basename` on the
character list. -/
def afterLastSlash (l : List Char) : List Char :=
  l.foldl (fun acc c => if c = '/' then [] else acc ++ [c]) []

/-- `os.path.basename` (POSIX). -/
def basename (p : String) : String := String.mk (afterLastSlash p.data)

/-- `os.path.join` (POSIX): an absolute second component replaces the
first; otherwise a `/` separator is inserted unless the first component
is empty or already ends in `/`. -/
def pyJoin (a b : String) : String :=
  if b.data.head? = some '/' then b
  else if a.data = [] ∨ a.data.getLast? = some '/' then
    String.mk (a.data ++ b.data)
  else String.mk (a.data ++ '/' :: b.data)

/-- `FolderStructureGenerator.is_hidden`:
`os.path.basename(path).startswith('.')`. -/
def is_hidden (path : String) : Bool :=
  (basename path).data.head? == some '.'

/-- Pure model of what the filesystem reports about a path.

* `file size` — a regular file of the given size;
* `dir entries` — a directory whose `os.listdir` succeeds and returns
  the names of `entries` (a directory is a finite map from names to
  subtrees, represented as an association list);
* `denied` — a directory (`os.path.isdir` is true) whose `os.listdir`
  raises `PermissionError`;
* `broken msg` — a directory whose `os.listdir` raises some other
  exception `e` with `str(e) = msg`. -/
inductive FS where
  | file (size : Nat) : FS
  | dir (entries : List (String × FS)) : FS
  | denied : FS
  | broken (msg : String) : FS
deriving Repr

/-- `os.path.isdir`. -/
def FS.isdir : FS → Bool
  | .file _ => false
  | .dir _ => true
  | .denied => true
  | .broken _ => true

/-- `os.path.getsize` as used by the source on non-directory entries
(only ever called with the `os.path.exists` guard; the pure model has
no races, so the guard is always satisfied for a `file`). -/
def FS.getsize : FS → Nat
  | .file size => size
  | .dir _ => 0
  | .denied => 0
  | .broken _ => 0

/-- The constructor arguments of `FolderStructureGenerator.__init__`. -/
structure Config where
  exclude_hidden : Bool := true
  max_depth : Option Int := none
  include_files : Bool := true

/-- The guard `self.max_depth is not None and current_depth >= self.max_depth`. -/
def depth_cutoff : Option Int → Nat → Bool
  | none, _ => false
  | some m, d => decide (m ≤ (d : Int))

/-- The sort key `lambda x: (not os.path.isdir(os.path.join(root_path, x)), x.lower())`
of an entry: `os.path.isdir` on the joined path reports on the entry's
own subtree. -/
def entryKey (pr : String × FS) : Bool × List Char :=
  (!pr.2.isdir, pyLower pr.1)

/-- Python `<` on the key tuples `(bool, str)`: lexicographic, with
`False < True`. -/
def keyLt : Bool × List Char → Bool × List Char → Bool
  | (a1, a2), (b1, b2) => (!a1 && b1) || (a1 == b1 && charListLt a2 b2)

/-- `x` may be placed no later than `y` by Python's ascending stable
sort: the key of `y` is not strictly below the key of `x`. -/
def entry_le (x y : String × FS) : Bool := !(keyLt (entryKey y) (entryKey x))

/-- `items.sort(key=lambda x: (not os.path.isdir(...), x.lower()))`:
Python's `list.sort` is a stable ascending sort, embedded as a stable
merge sort under `entry_le`. -/
def sortEntries (l : List (String × FS)) : List (String × FS) :=
  l.mergeSort entry_le

/-- The dictionaries built by `get_structure`: a tagged node with
`type` equal to `"directory"`, `"file"` or `"error"` and the fields the
source stores for each tag (an error dictionary stores its message in
the `name` field and `""` in the `path` field). -/
inductive Node where
  | dir (name : String) (path : String) (children : List Node) : Node
  | file (name : String) (path : String) (size : Nat) : Node
  | error (name : String) (path : String) : Node
deriving Repr

/-- The `name` field of a node dictionary. -/
def Node.name : Node → String
  | .dir n _ _ => n
  | .file n _ _ => n
  | .error n _ => n

/-- Whether the node's `type` field is `"directory"`. -/
def Node.isdirN : Node → Bool
  | .dir _ _ _ => true
  | .file _ _ _ => false
  | .error _ _ => false

/-- Whether the node's `type` field is `"file"`. -/
def Node.isFileN : Node → Bool
  | .dir _ _ _ => false
  | .file _ _ _ => true
  | .error _ _ => false

/-- Whether the node's `type` field is `"error"`. -/
def Node.isErrN : Node → Bool
  | .dir _ _ _ => false
  | .file _ _ _ => false
  | .error _ _ => true

/-- The `children` field of a node dictionary (`node.get("children",
[])`: absent for files and errors). -/
def Node.children : Node → List Node
  | .dir _ _ cs => cs
  | .file _ _ _ => []
  | .error _ _ => []

/-- Message of the exception `os.listdir` raises on a non-directory
path (the source never reaches this case through its CLI, which checks
`os.path.isdir` first; CPython's message also quotes the path). -/
def notADirectoryMsg (p : String) : String :=
  "[Errno 20] Not a directory: " ++ p

mutual

/-- `FolderStructureGenerator.get_structure(root_path, current_depth)`.

Returns `none` exactly when the Python function returns the falsy `{}`
(the depth cutoff), and otherwise `some` of the directory dictionary it
builds.  The four cases after the cutoff mirror the `try/except`: a
successful `os.listdir` sorts the entries and folds the loop body over
them (`children_of`); `PermissionError` and any other exception append
a single error dictionary. -/
def get_structure (cfg : Config) (root_path : String) (fs : FS)
    (current_depth : Nat) : Option Node :=
  if depth_cutoff cfg.max_depth current_depth then none
  else
    match fs with
    | FS.dir entries =>
        some (Node.dir (basename root_path) root_path
          (children_of cfg root_path (sortEntries entries) current_depth))
    | FS.denied =>
        some (Node.dir (basename root_path) root_path
          [Node.error "[Permission Denied]" ""])
    | FS.broken msg =>
        some (Node.dir (basename root_path) root_path
          [Node.error ("[Error: " ++ msg ++ "]") ""])
    | FS.file _ =>
        some (Node.dir (basename root_path) root_path
          [Node.error ("[Error: " ++ notADirectoryMsg root_path ++ "]") ""])
termination_by (sizeOf fs, 0)
decreasing_by
  have key : ∀ l₁ l₂ : List (String × FS), l₁.Perm l₂ →
      sizeOf l₁ = sizeOf l₂ := by
    intro l₁ l₂ hp
    induction hp with
    | nil => rfl
    | cons a _ ih => simp [ih]
    | swap a b l => simp; omega
    | trans _ _ ih₁ ih₂ => omega
  have hsz : sizeOf (sortEntries entries) = sizeOf entries :=
    key _ _ (List.mergeSort_perm entries entry_le)
  simp only [Prod.mk_lt_mk, hsz]
  simp
  omega

/-- The `for item in items:` loop body of `get_structure`, iterated over
the sorted entries: skip hidden entries when configured, recurse into
directories and append the result only when it is truthy (`some`), and
append a file dictionary when files are included. -/
def children_of (cfg : Config) (root_path : String)
    (entries : List (String × FS)) (current_depth : Nat) : List Node :=
  match entries with
  | [] => []
  | (item, sub) :: rest =>
      let item_path := pyJoin root_path item
      (if cfg.exclude_hidden && is_hidden item_path then []
       else if sub.isdir then
         (get_structure cfg item_path sub (current_depth + 1)).toList
       else if cfg.include_files then
         [Node.file item item_path sub.getsize]
       else []) ++ children_of cfg root_path rest current_depth
termination_by (sizeOf entries, 1)

end

/-- One iteration of the loop body of `get_structure` for the entry
`(item, sub)` of `root_path`: the (zero or one) node it appends. -/
def entryNodes (cfg : Config) (root_path item : String) (sub : FS)
    (current_depth : Nat) : List Node :=
  let item_path := pyJoin root_path item
  if cfg.exclude_hidden && is_hidden item_path then []
  else if sub.isdir then
    (get_structure cfg item_path sub (current_depth + 1)).toList
  else if cfg.include_files then
    [Node.file item item_path sub.getsize]
  else []

mutual

/-- `FolderStructureGenerator.print_structure(structure, prefix,
is_last, show_path)`, as the list of lines it prints (the Python
function writes to stdout; the embedding returns the lines). -/
def print_structure (node : Node) (pre : String) (is_last : Bool)
    (show_path : Bool) : List String :=
  match node with
  | Node.error name _ => [pre ++ "└── " ++ name]
  | Node.file name _ _ =>
      [pre ++ (if is_last then "└── " else "├── ") ++ name]
  | Node.dir name path children =>
      (pre ++ (if is_last then "└── " else "├── ") ++
        (if show_path then name ++ " (" ++ path ++ ")" else name)) ::
      print_children children (pre ++ (if is_last then "    " else "│   "))
        show_path

/-- The `for i, child in enumerate(structure["children"])` loop of
`print_structure`: `is_child_last = (i == len(children) - 1)` holds
exactly for the final child. -/
def print_children (children : List Node) (pre : String)
    (show_path : Bool) : List String :=
  match children with
  | [] => []
  | child :: rest =>
      print_structure child pre rest.isEmpty show_path ++
      print_children rest pre show_path

end

/-- The statistics dictionary of `get_summary`. -/
structure Summary where
  directories : Nat
  files : Nat
  errors : Nat
deriving Repr, DecidableEq

mutual

/-- The inner `count_items` of `FolderStructureGenerator.get_summary`:
a directory counts one and recurses into its children, a file counts
one file, an error dictionary counts one error. -/
def count_items : Node → Summary
  | Node.dir _ _ children =>
      let s := count_list children
      ⟨s.directories + 1, s.files, s.errors⟩
  | Node.file _ _ _ => ⟨0, 1, 0⟩
  | Node.error _ _ => ⟨0, 0, 1⟩

/-- Accumulation of `count_items` over a children list. -/
def count_list : List Node → Summary
  | [] => ⟨0, 0, 0⟩
  | c :: rest =>
      let s₁ := count_items c
      let s₂ := count_list rest
      ⟨s₁.directories + s₂.directories, s₁.files + s₂.files,
        s₁.errors + s₂.errors⟩

end

/-- `FolderStructureGenerator.get_summary(structure)`. -/
def get_summary (node : Node) : Summary := count_items node

/-- A JSON value, the shape `json.dump` serializes (only the
constructors the exported dictionaries use). -/
inductive JVal where
  | str (s : String) : JVal
  | num (n : Nat) : JVal
  | arr (l : List JVal) : JVal
  | obj (fields : List (String × JVal)) : JVal
deriving Repr

mutual

/-- The structured export: the dictionary `get_structure` builds and
`export_json` serializes, as a JSON value with the source's key order
(`name`, `type`, `path`, `children` for directories; `name`, `type`,
`path`, `size` for files; `name`, `type`, `path` for errors). -/
def toJson : Node → JVal
  | Node.dir name path children =>
      JVal.obj [("name", JVal.str name), ("type", JVal.str "directory"),
        ("path", JVal.str path), ("children", JVal.arr (toJsonList children))]
  | Node.file name path size =>
      JVal.obj [("name", JVal.str name), ("type", JVal.str "file"),
        ("path", JVal.str path), ("size", JVal.num size)]
  | Node.error name path =>
      JVal.obj [("name", JVal.str name), ("type", JVal.str "error"),
        ("path", JVal.str path)]

/-- `toJson` over a children list. -/
def toJsonList : List Node → List JVal
  | [] => []
  | c :: rest => toJson c :: toJsonList rest

end

mutual

/-- Modelled from the spec: reconstruction of a tree from the
structured export (the spec's round-trip property, §8), reading back
the `type`-discriminated mappings that `toJson` emits. -/
def ofJson : JVal → Option Node
  | JVal.obj [("name", JVal.str n), ("type", JVal.str "directory"),
      ("path", JVal.str p), ("children", JVal.arr l)] =>
      (ofJsonList l).map (Node.dir n p)
  | JVal.obj [("name", JVal.str n), ("type", JVal.str "file"),
      ("path", JVal.str p), ("size", JVal.num size)] =>
      some (Node.file n p size)
  | JVal.obj [("name", JVal.str n), ("type", JVal.str "error"),
      ("path", JVal.str p)] =>
      some (Node.error n p)
  | _ => none

/-- `ofJson` over an exported children array. -/
def ofJsonList : List JVal → Option (List Node)
  | [] => some []
  | v :: rest =>
      match ofJson v, ofJsonList rest with
      | some n, some ns => some (n :: ns)
      | _, _ => none

end

mutual

/-- All nodes of a tree in pre-order. -/
def Node.allNodes : Node → List Node
  | Node.dir name path children =>
      Node.dir name path children :: allNodesList children
  | Node.file name path size => [Node.file name path size]
  | Node.error name path => [Node.error name path]

/-- `Node.allNodes` over a children list. -/
def allNodesList : List Node → List Node
  | [] => []
  | c :: rest => c.allNodes ++ allNodesList rest

end

/-- Sibling order the built children obey: a directory may precede
anything that is not a directory, and two children of the same kind are
ordered by case-insensitive name. -/
def sibling_le (a b : Node) : Bool :=
  (a.isdirN && !b.isdirN) ||
    (a.isdirN == b.isdirN && !(charListLt (pyLower b.name) (pyLower a.name)))

/-- Whether consecutive members of a children list obey `sibling_le`. -/
def chainLE : List Node → Bool
  | [] => true
  | [_] => true
  | a :: b :: rest => sibling_le a b && chainLE (b :: rest)

mutual

/-- Every directory node of the tree has its children in the build
order: directories before files, each group ascending by
case-insensitive name. -/
def wellOrdered : Node → Bool
  | Node.dir _ _ children => chainLE children && wellOrderedList children
  | Node.file _ _ _ => true
  | Node.error _ _ => true

/-- `wellOrdered` over a children list. -/
def wellOrderedList : List Node → Bool
  | [] => true
  | c :: rest => wellOrdered c && wellOrderedList rest

end

/-- A name a filesystem entry can actually carry: nonempty and free of
the path separator. -/
def goodName (n : String) : Prop := n ≠ "" ∧ '/' ∉ n.data

mutual

/-- Every entry name in the filesystem tree is a `goodName`. -/
def FS.wfNames : FS → Prop
  | FS.dir entries => wfNamesList entries
  | FS.file _ => True
  | FS.denied => True
  | FS.broken _ => True

/-- `FS.wfNames` over an entry list. -/
def wfNamesList : List (String × FS) → Prop
  | [] => True
  | (n, sub) :: rest => goodName n ∧ sub.wfNames ∧ wfNamesList rest

end

mutual

/-- No enumeration ever fails below (or at) this subtree: every node is
a plain file or a listable directory. -/
def FS.clean : FS → Prop
  | FS.dir entries => cleanList entries
  | FS.file _ => True
  | FS.denied => False
  | FS.broken _ => False

/-- `FS.clean` over an entry list. -/
def cleanList : List (String × FS) → Prop
  | [] => True
  | (_, sub) :: rest => sub.clean ∧ cleanList rest

end

mutual

/-- No entry anywhere in the subtree has a name starting with `.`. -/
def FS.noHidden : FS → Prop
  | FS.dir entries => noHiddenList entries
  | FS.file _ => True
  | FS.denied => True
  | FS.broken _ => True

/-- `FS.noHidden` over an entry list. -/
def noHiddenList : List (String × FS) → Prop
  | [] => True
  | (n, sub) :: rest => n.data.head? ≠ some '.' ∧ sub.noHidden ∧ noHiddenList rest

end

mutual

/-- Total number of filesystem entries reachable below a path: each
entry of a directory counts one, plus the entries below it. -/
def FS.totalEntries : FS → Nat
  | FS.dir entries => totalEntriesList entries
  | FS.file _ => 0
  | FS.denied => 0
  | FS.broken _ => 0

/-- `FS.totalEntries` over an entry list. -/
def totalEntriesList : List (String × FS) → Nat
  | [] => 0
  | (_, sub) :: rest => 1 + sub.totalEntries + totalEntriesList rest

end

/-! ### Equation lemmas for the traversal -/

theorem get_structure_cutoff {cfg : Config} {p : String} {fs : FS} {d : Nat}
    (h : depth_cutoff cfg.max_depth d = true) :
    get_structure cfg p fs d = none := by
  rw [get_structure.eq_def]
  simp [h]

theorem get_structure_dir {cfg : Config} {p : String}
    {entries : List (String × FS)} {d : Nat}
    (h : depth_cutoff cfg.max_depth d = false) :
    get_structure cfg p (FS.dir entries) d =
      some (Node.dir (basename p) p
        (children_of cfg p (sortEntries entries) d)) := by
  rw [get_structure.eq_def]
  simp [h]

theorem get_structure_denied {cfg : Config} {p : String} {d : Nat}
    (h : depth_cutoff cfg.max_depth d = false) :
    get_structure cfg p FS.denied d =
      some (Node.dir (basename p) p [Node.error "[Permission Denied]" ""]) := by
  rw [get_structure.eq_def]
  simp [h]

theorem get_structure_broken {cfg : Config} {p msg : String} {d : Nat}
    (h : depth_cutoff cfg.max_depth d = false) :
    get_structure cfg p (FS.broken msg) d =
      some (Node.dir (basename p) p
        [Node.error ("[Error: " ++ msg ++ "]") ""]) := by
  rw [get_structure.eq_def]
  simp [h]

theorem children_of_nil {cfg : Config} {p : String} {d : Nat} :
    children_of cfg p [] d = [] := by
  rw [children_of]

theorem children_of_cons {cfg : Config} {p item : String} {sub : FS}
    {rest : List (String × FS)} {d : Nat} :
    children_of cfg p ((item, sub) :: rest) d =
      entryNodes cfg p item sub d ++ children_of cfg p rest d := by
  rw [children_of, entryNodes]

/-- Whatever `get_structure` returns under `some` is a directory node
for the queried path. -/
theorem get_structure_some {cfg : Config} {p : String} {fs : FS} {d : Nat}
    {x : Node} (h : get_structure cfg p fs d = some x) :
    ∃ cs, x = Node.dir (basename p) p cs := by
  rw [get_structure.eq_def] at h
  split at h
  · exact absurd h (by simp)
  · match fs, h with
    | FS.dir entries, h => exact ⟨_, (Option.some_injective _ h).symm⟩
    | FS.denied, h => exact ⟨_, (Option.some_injective _ h).symm⟩
    | FS.broken msg, h => exact ⟨_, (Option.some_injective _ h).symm⟩
    | FS.file _, h => exact ⟨_, (Option.some_injective _ h).symm⟩

theorem mem_children_of {cfg : Config} {p : String}
    {l : List (String × FS)} {d : Nat} {x : Node} :
    x ∈ children_of cfg p l d ↔
      ∃ pr ∈ l, x ∈ entryNodes cfg p pr.1 pr.2 d := by
  induction l with
  | nil => simp [children_of_nil]
  | cons pr rest ih =>
      obtain ⟨item, sub⟩ := pr
      simp [children_of_cons, ih]

theorem children_of_eq_flatMap {cfg : Config} {p : String}
    {l : List (String × FS)} {d : Nat} :
    children_of cfg p l d =
      l.flatMap (fun pr => entryNodes cfg p pr.1 pr.2 d) := by
  induction l with
  | nil => simp [children_of_nil]
  | cons pr rest ih =>
      obtain ⟨item, sub⟩ := pr
      simp [children_of_cons, ih]

/-- Case analysis on the single loop iteration: which node an entry
contributes and under which configuration tests. -/
theorem entryNodes_cases {cfg : Config} {p item : String} {sub : FS}
    {d : Nat} {x : Node} (h : x ∈ entryNodes cfg p item sub d) :
    (cfg.exclude_hidden && is_hidden (pyJoin p item)) = false ∧
      ((sub.isdir = true ∧
          get_structure cfg (pyJoin p item) sub (d + 1) = some x) ∨
        (sub.isdir = false ∧ cfg.include_files = true ∧
          x = Node.file item (pyJoin p item) sub.getsize)) := by
  simp only [entryNodes] at h
  by_cases hh : (cfg.exclude_hidden && is_hidden (pyJoin p item)) = true
  · rw [if_pos hh] at h
    simp at h
  · rw [if_neg hh] at h
    refine ⟨by simpa using hh, ?_⟩
    by_cases hd : sub.isdir = true
    · rw [if_pos hd] at h
      cases hg : get_structure cfg (pyJoin p item) sub (d + 1) with
      | none => rw [hg] at h; simp at h
      | some y =>
          rw [hg] at h
          simp at h
          refine Or.inl ⟨hd, ?_⟩
          rw [h]
    · rw [if_neg hd] at h
      by_cases hf : cfg.include_files = true
      · rw [if_pos hf] at h
        simp at h
        exact Or.inr ⟨by simpa using hd, hf, h⟩
      · rw [if_neg hf] at h
        simp at h

/-! ### Path arithmetic -/

theorem foldl_slash_free (ys : List Char) : ∀ acc : List Char, '/' ∉ ys →
    List.foldl (fun acc c => if c = '/' then [] else acc ++ [c]) acc ys =
      acc ++ ys := by
  induction ys with
  | nil => intro acc h; simp
  | cons c cs ih =>
      intro acc h
      have hc : ¬(c = '/') := fun hx => h (hx ▸ List.mem_cons_self c cs)
      have hcs : '/' ∉ cs := fun hx => h (List.mem_cons_of_mem c hx)
      rw [List.foldl_cons, if_neg hc, ih (acc ++ [c]) hcs]
      simp

theorem afterLastSlash_no_slash {ys : List Char} (h : '/' ∉ ys) :
    afterLastSlash ys = ys := by
  unfold afterLastSlash
  rw [foldl_slash_free ys [] h]
  simp

theorem afterLastSlash_append_sep (xs ys : List Char) :
    afterLastSlash (xs ++ '/' :: ys) = afterLastSlash ys := by
  unfold afterLastSlash
  rw [List.foldl_append, List.foldl_cons]
  simp

/-- `os.path.basename(os.path.join(p, n)) = n` for an actual entry
name `n` (nonempty, no separator). -/
theorem basename_pyJoin (p n : String) (hne : n ≠ "") (hs : '/' ∉ n.data) :
    basename (pyJoin p n) = n := by
  obtain ⟨c, cs, hdata⟩ : ∃ c cs, n.data = c :: cs := by
    cases hd : n.data with
    | nil =>
        exact absurd (by cases n with | mk l => simp at hd; simp [hd]) hne
    | cons c cs => exact ⟨c, cs, rfl⟩
  have hhead : ¬(n.data.head? = some '/') := by
    rw [hdata]
    intro hx
    simp at hx
    exact hs (by rw [hdata, hx]; exact List.mem_cons_self _ _)
  unfold pyJoin
  rw [if_neg hhead]
  by_cases hfirst : p.data = [] ∨ p.data.getLast? = some '/'
  · rw [if_pos hfirst]
    unfold basename
    rcases hfirst with h0 | hlast
    · rw [h0]
      simp only [List.nil_append]
      show String.mk (afterLastSlash n.data) = n
      rw [afterLastSlash_no_slash hs]
    · obtain ⟨ys, hys⟩ := List.getLast?_eq_some_iff.mp hlast
      rw [hys]
      show String.mk (afterLastSlash (ys ++ ['/'] ++ n.data)) = n
      have key : afterLastSlash (ys ++ ['/'] ++ n.data) = n.data := by
        have e : ys ++ ['/'] ++ n.data = ys ++ '/' :: n.data := by simp
        rw [e, afterLastSlash_append_sep, afterLastSlash_no_slash hs]
      rw [key]
  · rw [if_neg hfirst]
    unfold basename
    show String.mk (afterLastSlash (p.data ++ '/' :: n.data)) = n
    rw [afterLastSlash_append_sep, afterLastSlash_no_slash hs]

/-- On the joined path of a well-formed entry name, the source's
hidden test is exactly "the entry name starts with a dot". -/
theorem is_hidden_pyJoin (p n : String) (hne : n ≠ "") (hs : '/' ∉ n.data) :
    is_hidden (pyJoin p n) = (n.data.head? == some '.') := by
  unfold is_hidden
  rw [basename_pyJoin p n hne hs]

/-! ### Strong induction over the filesystem and node trees -/

theorem fs_strong_ind {P : FS → Prop}
    (step : ∀ fs : FS, (∀ sub : FS, sizeOf sub < sizeOf fs → P sub) → P fs) :
    ∀ fs, P fs := by
  have key : ∀ n : Nat, ∀ fs : FS, sizeOf fs ≤ n → P fs := by
    intro n
    induction n with
    | zero => exact fun fs h => step fs (fun sub hs => absurd hs (by omega))
    | succ n ih => exact fun fs h => step fs (fun sub hs => ih sub (by omega))
  exact fun fs => key (sizeOf fs) fs (Nat.le_refl _)

theorem node_strong_ind {P : Node → Prop}
    (step : ∀ x : Node, (∀ y : Node, sizeOf y < sizeOf x → P y) → P x) :
    ∀ x, P x := by
  have key : ∀ n : Nat, ∀ x : Node, sizeOf x ≤ n → P x := by
    intro n
    induction n with
    | zero => exact fun x h => step x (fun y hy => absurd hy (by omega))
    | succ n ih => exact fun x h => step x (fun y hy => ih y (by omega))
  exact fun x => key (sizeOf x) x (Nat.le_refl _)

theorem sizeOf_snd_lt_entries {item : String} {sub : FS}
    {entries : List (String × FS)} (h : (item, sub) ∈ entries) :
    sizeOf sub < sizeOf (FS.dir entries) := by
  have h1 := List.sizeOf_lt_of_mem h
  simp at h1 ⊢
  omega

theorem sizeOf_mem_children {c : Node} {name path : String}
    {children : List Node} (h : c ∈ children) :
    sizeOf c < sizeOf (Node.dir name path children) := by
  have h1 := List.sizeOf_lt_of_mem h
  simp
  omega

/-! ### Access lemmas for the recursive predicates -/

theorem wfNamesList_mem {entries : List (String × FS)}
    (h : wfNamesList entries) {item : String} {sub : FS}
    (hm : (item, sub) ∈ entries) : goodName item ∧ sub.wfNames := by
  induction entries with
  | nil => cases hm
  | cons pr rest ih =>
      obtain ⟨n, s⟩ := pr
      rw [wfNamesList] at h
      rcases List.mem_cons.mp hm with heq | hmem
      · obtain ⟨h1, h2⟩ := Prod.mk.injEq .. ▸ heq
        injection heq with e1 e2
        exact ⟨e1 ▸ h.1, e2 ▸ h.2.1⟩
      · exact ih h.2.2 hmem

theorem cleanList_mem {entries : List (String × FS)}
    (h : cleanList entries) {item : String} {sub : FS}
    (hm : (item, sub) ∈ entries) : sub.clean := by
  induction entries with
  | nil => cases hm
  | cons pr rest ih =>
      obtain ⟨n, s⟩ := pr
      rw [cleanList] at h
      rcases List.mem_cons.mp hm with heq | hmem
      · injection heq with e1 e2
        exact e2 ▸ h.1
      · exact ih h.2 hmem

theorem noHiddenList_mem {entries : List (String × FS)}
    (h : noHiddenList entries) {item : String} {sub : FS}
    (hm : (item, sub) ∈ entries) :
    item.data.head? ≠ some '.' ∧ sub.noHidden := by
  induction entries with
  | nil => cases hm
  | cons pr rest ih =>
      obtain ⟨n, s⟩ := pr
      rw [noHiddenList] at h
      rcases List.mem_cons.mp hm with heq | hmem
      · injection heq with e1 e2
        exact ⟨e1 ▸ h.1, e2 ▸ h.2.1⟩
      · exact ih h.2.2 hmem

theorem wellOrderedList_iff {children : List Node} :
    wellOrderedList children = true ↔ ∀ c ∈ children, wellOrdered c = true := by
  induction children with
  | nil => simp [wellOrderedList]
  | cons c rest ih => rw [wellOrderedList]; simp [ih]

/-! ### The sort order -/

theorem char_trichotomy (a b : Char) : a < b ∨ a = b ∨ b < a :=
  lt_trichotomy a b

theorem charListLt_irrefl (a : List Char) : charListLt a a = false := by
  induction a with
  | nil => rfl
  | cons c cs ih =>
      rw [charListLt]
      simp [ih, lt_irrefl]

theorem charListLt_trans {a b c : List Char} (h₁ : charListLt a b = true)
    (h₂ : charListLt b c = true) : charListLt a c = true := by
  induction a generalizing b c with
  | nil =>
      cases c with
      | nil =>
          cases b with
          | nil => exact absurd h₁ (by simp [charListLt])
          | cons y ys => exact absurd h₂ (by simp [charListLt])
      | cons z zs => rw [charListLt]
  | cons x xs ih =>
      cases b with
      | nil => exact absurd h₁ (by simp [charListLt])
      | cons y ys =>
          cases c with
          | nil => exact absurd h₂ (by simp [charListLt])
          | cons z zs =>
              rw [charListLt] at h₁ h₂ ⊢
              simp only [Bool.or_eq_true, Bool.and_eq_true, beq_iff_eq,
                decide_eq_true_eq] at h₁ h₂ ⊢
              rcases h₁ with h₁ | ⟨rfl, h₁⟩
              · rcases h₂ with h₂ | ⟨rfl, h₂⟩
                · exact Or.inl (lt_trans h₁ h₂)
                · exact Or.inl h₁
              · rcases h₂ with h₂ | ⟨rfl, h₂⟩
                · exact Or.inl h₂
                · exact Or.inr ⟨rfl, ih h₁ h₂⟩

theorem charListLt_asymm {a b : List Char} (h₁ : charListLt a b = true)
    (h₂ : charListLt b a = true) : False := by
  have := charListLt_trans h₁ h₂
  rw [charListLt_irrefl] at this
  cases this

theorem charListLt_connex {a b : List Char} (h₁ : charListLt a b = false)
    (h₂ : charListLt b a = false) : a = b := by
  induction a generalizing b with
  | nil =>
      cases b with
      | nil => rfl
      | cons y ys => exact absurd h₁ (by simp [charListLt])
  | cons x xs ih =>
      cases b with
      | nil => exact absurd h₂ (by simp [charListLt])
      | cons y ys =>
          rw [charListLt] at h₁ h₂
          simp only [Bool.or_eq_false_iff, Bool.and_eq_false_iff] at h₁ h₂
          rcases char_trichotomy x y with hc | rfl | hc
          · exact absurd (by simp [hc] : (decide (x < y)) = true)
              (by simp [h₁.1])
          · have e1 : charListLt xs ys = false := by
              rcases h₁.2 with h | h
              · simp at h
              · exact h
            have e2 : charListLt ys xs = false := by
              rcases h₂.2 with h | h
              · simp at h
              · exact h
            rw [ih e1 e2]
          · exact absurd (by simp [hc] : (decide (y < x)) = true)
              (by simp [h₂.1])

theorem keyLt_trans {u v w : Bool × List Char} (h₁ : keyLt u v = true)
    (h₂ : keyLt v w = true) : keyLt u w = true := by
  obtain ⟨u1, u2⟩ := u
  obtain ⟨v1, v2⟩ := v
  obtain ⟨w1, w2⟩ := w
  rw [keyLt] at h₁ h₂ ⊢
  cases u1 <;> cases v1 <;> cases w1 <;>
    simp_all <;>
    exact charListLt_trans h₁ h₂

theorem keyLt_connex {u v : Bool × List Char} (h₁ : keyLt u v = false)
    (h₂ : keyLt v u = false) : u = v := by
  obtain ⟨u1, u2⟩ := u
  obtain ⟨v1, v2⟩ := v
  rw [keyLt] at h₁ h₂
  cases u1 <;> cases v1 <;> simp_all
  · exact charListLt_connex h₁ h₂
  · exact charListLt_connex h₁ h₂

theorem keyLt_irrefl (u : Bool × List Char) : keyLt u u = false := by
  obtain ⟨u1, u2⟩ := u
  rw [keyLt]
  cases u1 <;> simp [charListLt_irrefl]

theorem entry_le_trans (a b c : String × FS) (h₁ : entry_le a b = true)
    (h₂ : entry_le b c = true) : entry_le a c = true := by
  rw [entry_le] at h₁ h₂ ⊢
  simp only [Bool.not_eq_true'] at h₁ h₂
  simp only [Bool.not_eq_true']
  by_cases hac : keyLt (entryKey c) (entryKey a) = true
  · by_cases hbc : keyLt (entryKey b) (entryKey c) = true
    · exact absurd (keyLt_trans hbc hac) (by simp [h₁])
    · have := keyLt_connex h₂ (by simpa using hbc)
      rw [this] at hac
      exact absurd hac (by simp [h₁])
  · simpa using hac

theorem entry_le_total (a b : String × FS) :
    (entry_le a b || entry_le b a) = true := by
  rw [entry_le, entry_le]
  by_cases h : keyLt (entryKey b) (entryKey a) = true
  · have : keyLt (entryKey a) (entryKey b) = false := by
      by_contra hx
      simp only [Bool.not_eq_false] at hx
      have := keyLt_trans h hx
      rw [keyLt_irrefl] at this
      cases this
    simp [this]
  · simp [h]

/-- The entries handed to the loop are pairwise in ascending key
order. -/
theorem sortEntries_pairwise (l : List (String × FS)) :
    (sortEntries l).Pairwise (fun a b => entry_le a b = true) :=
  List.sorted_mergeSort entry_le_trans entry_le_total l

theorem mem_sortEntries {pr : String × FS} {l : List (String × FS)} :
    pr ∈ sortEntries l ↔ pr ∈ l := List.mem_mergeSort

/-! ### The children of a built directory are in build order -/

/-- The shape of the node an entry contributes: same kind as the
entry's subtree, named after the entry. -/
theorem entryNodes_shape {cfg : Config} {p item : String} {sub : FS}
    {d : Nat} {x : Node} (hgood : goodName item)
    (h : x ∈ entryNodes cfg p item sub d) :
    x.isdirN = sub.isdir ∧ x.name = item := by
  obtain ⟨-, hcase⟩ := entryNodes_cases h
  rcases hcase with ⟨hdir, hrec⟩ | ⟨hfile, -, rfl⟩
  · obtain ⟨cs, rfl⟩ := get_structure_some hrec
    exact ⟨by simp [Node.isdirN, hdir], by
      simp [Node.name, basename_pyJoin p item hgood.1 hgood.2]⟩
  · exact ⟨by simp [Node.isdirN, hfile], rfl⟩

theorem sibling_le_of_entry_le {cfg : Config} {p : String}
    {d : Nat} {e₁ e₂ : String × FS} {x y : Node}
    (hg₁ : goodName e₁.1) (hg₂ : goodName e₂.1)
    (hle : entry_le e₁ e₂ = true)
    (hx : x ∈ entryNodes cfg p e₁.1 e₁.2 d)
    (hy : y ∈ entryNodes cfg p e₂.1 e₂.2 d) :
    sibling_le x y = true := by
  obtain ⟨hdx, hnx⟩ := entryNodes_shape hg₁ hx
  obtain ⟨hdy, hny⟩ := entryNodes_shape hg₂ hy
  rw [entry_le, entryKey, entryKey, keyLt] at hle
  rw [sibling_le, hdx, hdy, hnx, hny]
  cases hd1 : e₁.2.isdir <;> cases hd2 : e₂.2.isdir <;>
    rw [hd1, hd2] at hle <;> simp_all

theorem chainLE_of_pairwise {cs : List Node}
    (h : cs.Pairwise (fun a b => sibling_le a b = true)) :
    chainLE cs = true := by
  induction cs with
  | nil => rfl
  | cons a rest ih =>
      match rest, h with
      | [], _ => rfl
      | b :: rest', h =>
          rw [chainLE]
          have hab : sibling_le a b = true :=
            (List.pairwise_cons.mp h).1 b (List.mem_cons_self _ _)
          simp [hab, ih (List.pairwise_cons.mp h).2]

/-- The children list a successful enumeration builds is pairwise in
the sibling order. -/
theorem children_of_sibling_pairwise {cfg : Config} {p : String}
    {l : List (String × FS)} {d : Nat}
    (hgood : ∀ pr ∈ l, goodName pr.1)
    (hsorted : l.Pairwise (fun a b => entry_le a b = true)) :
    (children_of cfg p l d).Pairwise (fun a b => sibling_le a b = true) := by
  rw [children_of_eq_flatMap, List.flatMap]
  rw [List.pairwise_flatten]
  constructor
  · intro xs hxs
    rw [List.mem_map] at hxs
    obtain ⟨pr, hpr, rfl⟩ := hxs
    rw [entryNodes]
    split
    · exact List.Pairwise.nil
    · split
      · cases get_structure cfg (pyJoin p pr.1) pr.2 (d + 1) with
        | none => exact List.Pairwise.nil
        | some y => simp
      · split
        · simp
        · exact List.Pairwise.nil
  · rw [List.pairwise_map]
    refine hsorted.imp_of_mem ?_
    intro e₁ e₂ h₁ h₂ hle
    intro x hx y hy
    exact sibling_le_of_entry_le (hgood e₁ h₁) (hgood e₂ h₂) hle hx hy

theorem get_structure_file {cfg : Config} {p : String} {size d : Nat}
    (h : depth_cutoff cfg.max_depth d = false) :
    get_structure cfg p (FS.file size) d =
      some (Node.dir (basename p) p
        [Node.error ("[Error: " ++ notADirectoryMsg p ++ "]") ""]) := by
  rw [get_structure.eq_def]
  simp [h]

/-- Every directory node `get_structure` ever builds has its children
in the build order (directories first, case-insensitive names ascending
within each kind), at every level of the tree. -/
theorem wellOrdered_get_structure :
    ∀ fs : FS, FS.wfNames fs → ∀ (cfg : Config) (p : String) (d : Nat)
      (x : Node), get_structure cfg p fs d = some x → wellOrdered x = true := by
  refine fs_strong_ind ?_
  intro fs ih hwf cfg p d x hx
  by_cases hcut : depth_cutoff cfg.max_depth d = true
  · rw [get_structure_cutoff hcut] at hx
    cases hx
  · have hcut' : depth_cutoff cfg.max_depth d = false := by simpa using hcut
    match fs, hwf, ih with
    | FS.dir entries, hwf, ih =>
        rw [get_structure_dir hcut'] at hx
        injection hx with hx
        subst hx
        rw [FS.wfNames] at hwf
        rw [wellOrdered, Bool.and_eq_true]
        constructor
        · apply chainLE_of_pairwise
          apply children_of_sibling_pairwise
          · intro pr hpr
            obtain ⟨item, sub⟩ := pr
            exact (wfNamesList_mem hwf (mem_sortEntries.mp hpr)).1
          · exact sortEntries_pairwise entries
        · rw [wellOrderedList_iff]
          intro c hc
          obtain ⟨pr, hpr, hcn⟩ := mem_children_of.mp hc
          obtain ⟨item, sub⟩ := pr
          have hmem : (item, sub) ∈ entries := mem_sortEntries.mp hpr
          obtain ⟨-, hcase⟩ := entryNodes_cases hcn
          rcases hcase with ⟨-, hrec⟩ | ⟨-, -, rfl⟩
          · exact ih sub (sizeOf_snd_lt_entries hmem)
              (wfNamesList_mem hwf hmem).2 cfg _ _ c hrec
          · rw [wellOrdered]
    | FS.denied, _, _ =>
        rw [get_structure_denied hcut'] at hx
        injection hx with hx
        subst hx
        rw [wellOrdered, chainLE, wellOrderedList, wellOrdered, wellOrderedList]
        rfl
    | FS.broken msg, _, _ =>
        rw [get_structure_broken hcut'] at hx
        injection hx with hx
        subst hx
        rw [wellOrdered, chainLE, wellOrderedList, wellOrdered, wellOrderedList]
        rfl
    | FS.file size, _, _ =>
        rw [get_structure_file hcut'] at hx
        injection hx with hx
        subst hx
        rw [wellOrdered, chainLE, wellOrderedList, wellOrdered, wellOrderedList]
        rfl

/-! ### Flattened node lists -/

theorem allNodes_dir (n p : String) (cs : List Node) :
    (Node.dir n p cs).allNodes = Node.dir n p cs :: allNodesList cs := by
  rw [Node.allNodes]

theorem allNodes_file (n p : String) (s : Nat) :
    (Node.file n p s).allNodes = [Node.file n p s] := by
  rw [Node.allNodes]

theorem allNodes_error (n p : String) :
    (Node.error n p).allNodes = [Node.error n p] := by
  rw [Node.allNodes]

theorem mem_allNodesList {x : Node} {l : List Node} :
    x ∈ allNodesList l ↔ ∃ c ∈ l, x ∈ c.allNodes := by
  induction l with
  | nil => simp [allNodesList]
  | cons c rest ih => rw [allNodesList]; simp [ih]

/-- After the depth-cutoff test, every filesystem shape yields a
directory dictionary for the queried path. -/
theorem get_structure_total {cfg : Config} {p : String} (fs : FS) {d : Nat}
    (h : depth_cutoff cfg.max_depth d = false) :
    ∃ cs, get_structure cfg p fs d = some (Node.dir (basename p) p cs) := by
  cases fs with
  | dir entries => exact ⟨_, get_structure_dir h⟩
  | denied => exact ⟨_, get_structure_denied h⟩
  | broken msg => exact ⟨_, get_structure_broken h⟩
  | file s => exact ⟨_, get_structure_file h⟩

/-- With hidden-entry exclusion on, no node below the root of a built
tree carries a name starting with `.` (error nodes are named by their
bracketed messages). -/
theorem no_hidden_below :
    ∀ fs : FS, FS.wfNames fs → ∀ (cfg : Config) (p : String) (d : Nat)
      (x : Node), cfg.exclude_hidden = true →
      get_structure cfg p fs d = some x →
      ∀ c ∈ allNodesList x.children, c.name.data.head? ≠ some '.' := by
  refine fs_strong_ind ?_
  intro fs ih hwf cfg p d x hex hx c hc
  by_cases hcut : depth_cutoff cfg.max_depth d = true
  · rw [get_structure_cutoff hcut] at hx
    cases hx
  · have hcut' : depth_cutoff cfg.max_depth d = false := by simpa using hcut
    match fs, hwf, ih with
    | FS.dir entries, hwf, ih =>
        rw [get_structure_dir hcut'] at hx
        injection hx with hx
        subst hx
        rw [FS.wfNames] at hwf
        rw [Node.children] at hc
        obtain ⟨ch, hch, hcn⟩ := mem_allNodesList.mp hc
        obtain ⟨pr, hpr, hpe⟩ := mem_children_of.mp hch
        obtain ⟨item, sub⟩ := pr
        have hmem : (item, sub) ∈ entries := mem_sortEntries.mp hpr
        obtain ⟨hg, hwfs⟩ := wfNamesList_mem hwf hmem
        obtain ⟨hskip, hcase⟩ := entryNodes_cases hpe
        have hnodot : item.data.head? ≠ some '.' := by
          rw [hex] at hskip
          simp only [Bool.true_and] at hskip
          rw [is_hidden_pyJoin p item hg.1 hg.2] at hskip
          simpa using hskip
        rcases hcase with ⟨-, hrec⟩ | ⟨-, -, rfl⟩
        · obtain ⟨cs', rfl⟩ := get_structure_some hrec
          rw [allNodes_dir] at hcn
          rcases List.mem_cons.mp hcn with rfl | hdeep
          · rw [Node.name, basename_pyJoin p item hg.1 hg.2]
            exact hnodot
          · exact ih sub (sizeOf_snd_lt_entries hmem) hwfs cfg _ _ _ hex hrec
              c (by rw [Node.children]; exact hdeep)
        · rw [allNodes_file] at hcn
          rcases List.mem_singleton.mp hcn with rfl
          rw [Node.name]
          exact hnodot
    | FS.denied, _, _ =>
        rw [get_structure_denied hcut'] at hx
        injection hx with hx
        subst hx
        simp only [Node.children, allNodesList, allNodes_error,
          List.cons_append, List.nil_append] at hc
        rcases List.mem_singleton.mp hc with rfl
        rw [Node.name]
        decide
    | FS.broken msg, _, _ =>
        rw [get_structure_broken hcut'] at hx
        injection hx with hx
        subst hx
        simp only [Node.children, allNodesList, allNodes_error,
          List.cons_append, List.nil_append] at hc
        rcases List.mem_singleton.mp hc with rfl
        rw [Node.name]
        rw [String.data_append, String.data_append]
        intro hbad
        cases hbad
    | FS.file size, _, _ =>
        rw [get_structure_file hcut'] at hx
        injection hx with hx
        subst hx
        simp only [Node.children, allNodesList, allNodes_error,
          List.cons_append, List.nil_append] at hc
        rcases List.mem_singleton.mp hc with rfl
        rw [Node.name]
        rw [notADirectoryMsg, String.data_append, String.data_append]
        intro hbad
        cases hbad

/-- An entry of a listable directory contributes a node named after it
whenever the filters let it through (no hidden skip, and files
included when it is a file). -/
theorem entry_contributes {cfg : Config} {p n : String} {sub : FS}
    {entries : List (String × FS)}
    (hmd : cfg.max_depth = none) (hif : cfg.include_files = true)
    (hg : goodName n) (hmem : (n, sub) ∈ entries)
    (hskip : (cfg.exclude_hidden && is_hidden (pyJoin p n)) = false) :
    ∃ c ∈ children_of cfg p (sortEntries entries) 0, c.name = n := by
  have hcut : ∀ d : Nat, depth_cutoff cfg.max_depth d = false := by
    intro d
    rw [hmd]
    rfl
  by_cases hd : sub.isdir = true
  · obtain ⟨cs', hy⟩ :=
      @get_structure_total cfg (pyJoin p n) sub 1 (hcut 1)
    refine ⟨Node.dir (basename (pyJoin p n)) (pyJoin p n) cs', ?_, ?_⟩
    · rw [mem_children_of]
      refine ⟨(n, sub), mem_sortEntries.mpr hmem, ?_⟩
      rw [entryNodes]
      rw [if_neg (by rw [hskip]; exact Bool.false_ne_true), if_pos hd]
      rw [show (0 : Nat) + 1 = 1 from rfl, hy]
      simp
    · rw [Node.name, basename_pyJoin p n hg.1 hg.2]
  · refine ⟨Node.file n (pyJoin p n) sub.getsize, ?_, by rw [Node.name]⟩
    rw [mem_children_of]
    refine ⟨(n, sub), mem_sortEntries.mpr hmem, ?_⟩
    rw [entryNodes]
    rw [if_neg (by rw [hskip]; exact Bool.false_ne_true), if_neg hd,
      if_pos hif]
    simp

/-! ### Claims -/

/-- C1, as written, is false of the code: with `maxDepth = 1` the
recursive call for `sub` returns the falsy `{}` and the `if
child_structure:` guard drops `sub` entirely, so the root's children do
NOT contain a `Directory` node for `sub`. -/
theorem c1_counterexample :
    ¬ ∃ cs, get_structure ⟨true, some 1, true⟩ "root"
        (FS.dir [("sub", FS.dir [("deep.txt", FS.file 3)])]) 0 =
          some (Node.dir "root" "root" cs) ∧
        ∃ c ∈ cs, Node.isdirN c = true ∧ Node.name c = "sub" := by
  intro h
  obtain ⟨cs, heq, c, hc, -⟩ := h
  have heval : get_structure ⟨true, some 1, true⟩ "root"
      (FS.dir [("sub", FS.dir [("deep.txt", FS.file 3)])]) 0 =
        some (Node.dir "root" "root" []) := by
    simp [get_structure, children_of, depth_cutoff, sortEntries, entry_le,
      entryKey, keyLt, FS.isdir, is_hidden, basename, pyJoin, afterLastSlash,
      pyLower, charListLt]
  rw [heval] at heq
  simp only [Option.some.injEq, Node.dir.injEq] at heq
  rw [← heq.2.2] at hc
  cases hc

/-- C1 (amended).  `build(root, {maxDepth: 1})` on a root containing a
subdirectory `sub` that contains `deep.txt` returns a root `Directory`
in whose tree no `Directory` node appears at all below the root — in
particular no node for `sub`, which is dropped entirely rather than
kept with empty children — and no node for `deep.txt` appears
anywhere. -/
theorem c1_amended (cfg : Config) (path : String)
    (entries subentries : List (String × FS))
    (hdepth : cfg.max_depth = some 1)
    (hsub : ("sub", FS.dir subentries) ∈ entries)
    (hnodup : (entries.map Prod.fst).Nodup)
    (hdeep : ∀ pr ∈ entries, pr.1 ≠ "deep.txt") :
    ∃ cs, get_structure cfg path (FS.dir entries) 0 =
        some (Node.dir (basename path) path cs) ∧
      ∀ c ∈ allNodesList cs,
        c.isdirN = false ∧ c.name ≠ "deep.txt" ∧ c.name ≠ "sub" := by
  have hcut : depth_cutoff cfg.max_depth 0 = false := by
    rw [hdepth]; rfl
  refine ⟨_, get_structure_dir hcut, ?_⟩
  intro c hc
  obtain ⟨ch, hch, hcn⟩ := mem_allNodesList.mp hc
  obtain ⟨pr, hpr, hpe⟩ := mem_children_of.mp hch
  have hmem : pr ∈ entries := mem_sortEntries.mp hpr
  obtain ⟨-, hcase⟩ := entryNodes_cases hpe
  rcases hcase with ⟨-, hrec⟩ | ⟨hnd, -, rfl⟩
  · have : depth_cutoff cfg.max_depth (0 + 1) = true := by
      rw [hdepth]; rfl
    rw [get_structure_cutoff this] at hrec
    cases hrec
  · rw [allNodes_file] at hcn
    rcases List.mem_singleton.mp hcn with rfl
    refine ⟨rfl, hdeep pr hmem, ?_⟩
    intro hname
    rw [Node.name] at hname
    have : pr = ("sub", FS.dir subentries) :=
      List.inj_on_of_nodup_map hnodup hmem hsub hname
    rw [this] at hnd
    cases hnd

/-- Witness for C1 (amended) at an explicit root. -/
theorem c1_witness :
    ∃ cs, get_structure ⟨true, some 1, true⟩ "root"
        (FS.dir [("sub", FS.dir [("deep.txt", FS.file 3)])]) 0 =
          some (Node.dir (basename "root") "root" cs) ∧
      ∀ c ∈ allNodesList cs,
        c.isdirN = false ∧ c.name ≠ "deep.txt" ∧ c.name ≠ "sub" :=
  c1_amended ⟨true, some 1, true⟩ "root"
    [("sub", FS.dir [("deep.txt", FS.file 3)])] [("deep.txt", FS.file 3)]
    rfl (List.mem_singleton.mpr rfl) (by simp)
    (by intro pr hpr; rcases List.mem_singleton.mp hpr with rfl; decide)

/-- C2, as written, is false of the code: with `maxDepth = 0` the
depth-cutoff guard fires already at the root call and `get_structure`
returns the empty falsy `{}` instead of a `Directory` node. -/
theorem c2_counterexample :
    ¬ ∃ x, get_structure ⟨true, some 0, true⟩ "root" (FS.dir []) 0 = some x := by
  intro h
  obtain ⟨x, hx⟩ := h
  rw [get_structure_cutoff (by decide)] at hx
  cases hx

/-- C2 (amended).  For every existing directory and every
configuration whose `maxDepth` is unset or positive, `build` returns a
`Directory` node (name, path and ordered children); when `maxDepth` is
`0` (or negative) it instead returns the empty falsy `{}`. -/
theorem c2_amended (cfg : Config) (path : String) (fs : FS)
    (h : cfg.max_depth = none ∨ ∃ m, cfg.max_depth = some m ∧ 0 < m) :
    ∃ cs, get_structure cfg path fs 0 =
      some (Node.dir (basename path) path cs) := by
  have hcut : depth_cutoff cfg.max_depth 0 = false := by
    rcases h with h | ⟨m, hm, hpos⟩
    · rw [h]; rfl
    · rw [hm, depth_cutoff]
      simp
      omega
  exact get_structure_total fs hcut

/-- Witness for C2 (amended) at an explicit configuration. -/
theorem c2_witness :
    ∃ cs, get_structure ⟨true, some 5, true⟩ "root" (FS.dir []) 0 =
      some (Node.dir (basename "root") "root" cs) :=
  c2_amended ⟨true, some 5, true⟩ "root" (FS.dir [])
    (Or.inr ⟨5, rfl, by decide⟩)

/-- C3, as written, is false of the code: a visited subdirectory whose
enumeration yields zero children returns a four-key (truthy)
dictionary, so it IS appended to its parent's children — here the empty
subdirectory `empty` appears as a `Directory` node with no children. -/
theorem c3_counterexample :
    ∃ cs, get_structure ⟨true, none, true⟩ "root"
        (FS.dir [("empty", FS.dir [])]) 0 =
          some (Node.dir "root" "root" cs) ∧
      Node.dir "empty" "root/empty" [] ∈ cs := by
  refine ⟨[Node.dir "empty" "root/empty" []], ?_, List.mem_singleton.mpr rfl⟩
  simp [get_structure, children_of, depth_cutoff, sortEntries, entry_le,
    entryKey, keyLt, FS.isdir, is_hidden, basename, pyJoin, afterLastSlash,
    pyLower, charListLt]

/-- C3 (amended).  Only the depth-cutoff result `{}` is falsy and
silently dropped by the `if child_structure:` guard; a visited
subdirectory that enumerates to zero children is truthy and is appended
to its parent's children as a `Directory` node with an empty children
list. -/
theorem c3_amended (cfg : Config) (path n : String)
    (entries : List (String × FS))
    (hdepth : cfg.max_depth = none) (hgood : goodName n)
    (hmem : (n, FS.dir []) ∈ entries)
    (hhid : ¬(cfg.exclude_hidden = true ∧ n.data.head? = some '.')) :
    ∃ cs, get_structure cfg path (FS.dir entries) 0 =
        some (Node.dir (basename path) path cs) ∧
      Node.dir n (pyJoin path n) [] ∈ cs := by
  have hcut : ∀ d, depth_cutoff cfg.max_depth d = false := by
    intro d; rw [hdepth]; rfl
  refine ⟨_, get_structure_dir (hcut 0), ?_⟩
  rw [mem_children_of]
  refine ⟨(n, FS.dir []), mem_sortEntries.mpr hmem, ?_⟩
  rw [entryNodes]
  have hskip : (cfg.exclude_hidden && is_hidden (pyJoin path n)) = false := by
    rw [is_hidden_pyJoin path n hgood.1 hgood.2]
    cases hx : cfg.exclude_hidden
    · rfl
    · simp only [Bool.true_and, beq_eq_false_iff_ne, ne_eq]
      intro hdot
      exact hhid ⟨hx, hdot⟩
  rw [hskip]
  simp only [Bool.false_eq_true, if_false, FS.isdir, if_true]
  have : get_structure cfg (pyJoin path n) (FS.dir []) (0 + 1) =
      some (Node.dir n (pyJoin path n) []) := by
    rw [get_structure_dir (hcut 1)]
    rw [basename_pyJoin path n hgood.1 hgood.2]
    have : sortEntries ([] : List (String × FS)) = [] := List.mergeSort_nil
    rw [this, children_of_nil]
  rw [this]
  simp

/-- Witness for C3 (amended) at an explicit root. -/
theorem c3_witness :
    ∃ cs, get_structure ⟨true, none, true⟩ "root"
        (FS.dir [("empty", FS.dir [])]) 0 =
          some (Node.dir (basename "root") "root" cs) ∧
      Node.dir "empty" (pyJoin "root" "empty") [] ∈ cs :=
  c3_amended ⟨true, none, true⟩ "root" "empty" [("empty", FS.dir [])]
    rfl ⟨by decide, by decide⟩ (List.mem_singleton.mpr rfl) (by decide)

/-- C4.  A failing enumeration never propagates: `PermissionError`
appends the single error node `"[Permission Denied]"`, any other
exception appends `"[Error: <description>]"`, and the `Directory` is
returned normally; for the permission case the children are exactly
one error node and `get_summary` reports one error. -/
theorem c4_theorem (cfg : Config) (path msg : String) (d : Nat)
    (h : depth_cutoff cfg.max_depth d = false) :
    (get_structure cfg path FS.denied d =
        some (Node.dir (basename path) path
          [Node.error "[Permission Denied]" ""]) ∧
      get_summary (Node.dir (basename path) path
        [Node.error "[Permission Denied]" ""]) =
          ⟨1, 0, 1⟩) ∧
    get_structure cfg path (FS.broken msg) d =
      some (Node.dir (basename path) path
        [Node.error ("[Error: " ++ msg ++ "]") ""]) := by
  refine ⟨⟨get_structure_denied h, ?_⟩, get_structure_broken h⟩
  rw [get_summary]
  rw [count_items, count_list, count_items, count_list]
  simp

/-- Witness for C4 at an explicit configuration and path. -/
theorem c4_witness :
    (get_structure ⟨true, none, true⟩ "root" FS.denied 0 =
        some (Node.dir (basename "root") "root"
          [Node.error "[Permission Denied]" ""]) ∧
      get_summary (Node.dir (basename "root") "root"
        [Node.error "[Permission Denied]" ""]) =
          ⟨1, 0, 1⟩) ∧
    get_structure ⟨true, none, true⟩ "root" (FS.broken "boom") 0 =
      some (Node.dir (basename "root") "root"
        [Node.error ("[Error: " ++ "boom" ++ "]") ""]) :=
  c4_theorem ⟨true, none, true⟩ "root" "boom" 0 rfl

/-- C5.  In every `Directory` node of every tree `build` returns, the
children are ordered with directory children before file children and
each group ascending by case-insensitive name (the tree is immutable
once built, so the order fixed at construction is never changed); in
particular the root `[b.txt, A, a.txt, B]` (with `A`, `B`
subdirectories) yields the child order `A, B, a.txt, b.txt`. -/
theorem c5_theorem :
    (∀ (fs : FS) (cfg : Config) (p : String) (d : Nat) (x : Node),
        FS.wfNames fs → get_structure cfg p fs d = some x →
        wellOrdered x = true) ∧
    get_structure ⟨true, none, true⟩ "root"
        (FS.dir [("b.txt", FS.file 1), ("A", FS.dir []),
          ("a.txt", FS.file 2), ("B", FS.dir [])]) 0 =
      some (Node.dir "root" "root"
        [Node.dir "A" "root/A" [], Node.dir "B" "root/B" [],
         Node.file "a.txt" "root/a.txt" 2,
         Node.file "b.txt" "root/b.txt" 1]) := by
  constructor
  · intro fs cfg p d x hwf h
    exact wellOrdered_get_structure fs hwf cfg p d x h
  · simp [get_structure, children_of, depth_cutoff, sortEntries, entry_le,
      entryKey, keyLt, FS.isdir, is_hidden, basename, pyJoin, afterLastSlash,
      pyLower, charListLt, FS.getsize, List.mergeSort]

/-- Witness for C5 applying the invariant to the example tree. -/
theorem c5_witness :
    wellOrdered (Node.dir "root" "root"
      [Node.dir "A" "root/A" [], Node.dir "B" "root/B" [],
       Node.file "a.txt" "root/a.txt" 2,
       Node.file "b.txt" "root/b.txt" 1]) = true :=
  c5_theorem.1
    (FS.dir [("b.txt", FS.file 1), ("A", FS.dir []),
      ("a.txt", FS.file 2), ("B", FS.dir [])])
    ⟨true, none, true⟩ "root" 0 _
    (by rw [FS.wfNames]
        rw [wfNamesList, wfNamesList, wfNamesList, wfNamesList, wfNamesList]
        refine ⟨⟨by decide, by decide⟩, ⟨⟩, ⟨by decide, by decide⟩, ⟨⟩,
          ⟨by decide, by decide⟩, ⟨⟩, ⟨by decide, by decide⟩, ⟨⟩, ⟨⟩⟩)
    c5_theorem.2

/-- C6.  With `excludeHidden = true` no node anywhere below the root
is emitted for an entry whose base name starts with `.`; with
`excludeHidden = false` such entries do appear among the children
(`includeFiles = true`, no depth limit), sorted by the same rule as
all other children. -/
theorem c6_theorem :
    (∀ (fs : FS) (cfg : Config) (p : String) (d : Nat) (x : Node),
        cfg.exclude_hidden = true → FS.wfNames fs →
        get_structure cfg p fs d = some x →
        ∀ c ∈ allNodesList x.children, c.name.data.head? ≠ some '.') ∧
    (∀ (cfg : Config) (p n : String) (sub : FS)
        (entries : List (String × FS)),
        cfg.exclude_hidden = false → cfg.max_depth = none →
        cfg.include_files = true → goodName n → (n, sub) ∈ entries →
        ∃ cs, get_structure cfg p (FS.dir entries) 0 =
            some (Node.dir (basename p) p cs) ∧
          ∃ c ∈ cs, c.name = n) := by
  constructor
  · intro fs cfg p d x hex hwf hx
    exact no_hidden_below fs hwf cfg p d x hex hx
  · intro cfg p n sub entries hex hmd hif hg hmem
    have hcut : depth_cutoff cfg.max_depth 0 = false := by
      rw [hmd]
      rfl
    refine ⟨_, get_structure_dir hcut, ?_⟩
    exact entry_contributes hmd hif hg hmem (by rw [hex]; rfl)

/-- Witness for C6: exclusion on a `.git`/`.env` root, then inclusion
of `.env` when the filter is off. -/
theorem c6_witness :
    (∀ c ∈ allNodesList (Node.dir "root" "root"
        [Node.file "x.txt" "root/x.txt" 1]).children,
      c.name.data.head? ≠ some '.') ∧
    (∃ cs, get_structure ⟨false, none, true⟩ "root"
        (FS.dir [(".git", FS.dir []), (".env", FS.file 7)]) 0 =
          some (Node.dir (basename "root") "root" cs) ∧
      ∃ c ∈ cs, c.name = ".env") :=
  ⟨c6_theorem.1
      (FS.dir [(".git", FS.dir []), (".env", FS.file 7),
        ("x.txt", FS.file 1)])
      ⟨true, none, true⟩ "root" 0
      (Node.dir "root" "root" [Node.file "x.txt" "root/x.txt" 1])
      rfl
      (by rw [FS.wfNames]
          rw [wfNamesList, wfNamesList, wfNamesList]
          refine ⟨⟨by decide, by decide⟩, ⟨⟩, ⟨by decide, by decide⟩, ⟨⟩,
            ⟨by decide, by decide⟩, ⟨⟩, ⟨⟩⟩)
      (by simp [get_structure, children_of, depth_cutoff, sortEntries,
        entry_le, entryKey, keyLt, FS.isdir, is_hidden, basename, pyJoin,
        afterLastSlash, pyLower, charListLt, FS.getsize, List.mergeSort]),
    c6_theorem.2 ⟨false, none, true⟩ "root" ".env" (FS.file 7)
      [(".git", FS.dir []), (".env", FS.file 7)] rfl rfl rfl
      ⟨by decide, by decide⟩ (by simp)⟩

/-- C10.  Hidden-entry filtering applies only to enumerated entries
inside the loop, never to the root path itself: a root whose own base
name starts with `.` is still built normally under
`excludeHidden = true`, every non-hidden entry contributing a child. -/
theorem c10_theorem (cfg : Config) (path : String)
    (entries : List (String × FS))
    (hex : cfg.exclude_hidden = true) (hmd : cfg.max_depth = none)
    (hif : cfg.include_files = true)
    (hdot : (basename path).data.head? = some '.') :
    ∃ cs, get_structure cfg path (FS.dir entries) 0 =
        some (Node.dir (basename path) path cs) ∧
      ∀ pr ∈ entries, goodName pr.1 → pr.1.data.head? ≠ some '.' →
        ∃ c ∈ cs, c.name = pr.1 := by
  have hcut : depth_cutoff cfg.max_depth 0 = false := by
    rw [hmd]
    rfl
  refine ⟨_, get_structure_dir hcut, ?_⟩
  intro pr hmem hg hdotn
  obtain ⟨n, sub⟩ := pr
  refine entry_contributes hmd hif hg hmem ?_
  rw [hex, Bool.true_and, is_hidden_pyJoin path n hg.1 hg.2]
  simpa using hdotn

/-- Witness for C10 at a hidden root `.config` with a visible file. -/
theorem c10_witness :
    ∃ cs, get_structure ⟨true, none, true⟩ ".config"
        (FS.dir [("vis.txt", FS.file 4)]) 0 =
        some (Node.dir (basename ".config") ".config" cs) ∧
      ∀ pr ∈ [("vis.txt", FS.file 4)], goodName pr.1 →
        pr.1.data.head? ≠ some '.' →
        ∃ c ∈ cs, Node.name c = pr.1 :=
  c10_theorem ⟨true, none, true⟩ ".config" [("vis.txt", FS.file 4)]
    rfl rfl rfl (by decide)

/-- Componentwise addition of `count_list` over an append. -/
theorem count_list_append (l₁ l₂ : List Node) :
    count_list (l₁ ++ l₂) =
      ⟨(count_list l₁).directories + (count_list l₂).directories,
        (count_list l₁).files + (count_list l₂).files,
        (count_list l₁).errors + (count_list l₂).errors⟩ := by
  induction l₁ with
  | nil =>
      rw [List.nil_append, count_list]
      simp
  | cons c rest ih =>
      rw [List.cons_append, count_list, count_list, ih]
      simp
      omega

/-- `totalEntriesList` as a sum, for permutation invariance. -/
theorem totalEntriesList_eq_sum (l : List (String × FS)) :
    totalEntriesList l = (l.map (fun pr => 1 + pr.2.totalEntries)).sum := by
  induction l with
  | nil => rw [totalEntriesList]; rfl
  | cons pr rest ih =>
      obtain ⟨n, sub⟩ := pr
      rw [totalEntriesList, ih]
      simp

theorem totalEntriesList_sortEntries (l : List (String × FS)) :
    totalEntriesList (sortEntries l) = totalEntriesList l := by
  rw [totalEntriesList_eq_sum, totalEntriesList_eq_sum]
  exact List.Perm.sum_eq ((List.mergeSort_perm l entry_le).map _)

/-- `count_items` counts each node of the pre-order flattening exactly
once by kind. -/
theorem count_eq_countP :
    ∀ x : Node, count_items x =
      ⟨x.allNodes.countP Node.isdirN, x.allNodes.countP Node.isFileN,
        x.allNodes.countP Node.isErrN⟩ := by
  refine node_strong_ind ?_
  intro x ih
  match x, ih with
  | Node.error n p, _ =>
      rw [count_items, allNodes_error]
      simp [List.countP_cons, Node.isdirN, Node.isFileN, Node.isErrN]
  | Node.file n p sz, _ =>
      rw [count_items, allNodes_file]
      simp [List.countP_cons, Node.isdirN, Node.isFileN, Node.isErrN]
  | Node.dir n p cs, ih =>
      rw [count_items, allNodes_dir]
      have key : ∀ l : List Node,
          (∀ c ∈ l, sizeOf c < sizeOf (Node.dir n p cs)) →
          count_list l =
            ⟨(allNodesList l).countP Node.isdirN,
              (allNodesList l).countP Node.isFileN,
              (allNodesList l).countP Node.isErrN⟩ := by
        intro l
        induction l with
        | nil =>
            intro _
            rw [count_list, allNodesList]
            simp
        | cons c rest ihl =>
            intro hsz
            rw [count_list, allNodesList,
              ih c (hsz c (List.mem_cons_self _ _)),
              ihl (fun e he => hsz e (List.mem_cons_of_mem _ he))]
            simp [List.countP_append]
      rw [key cs (fun c hc => sizeOf_mem_children hc)]
      simp [List.countP_cons, Node.isdirN, Node.isFileN, Node.isErrN]

/-- Under no filtering and no failures, a built tree holds one
file-or-directory node per reachable filesystem entry plus the root. -/
theorem count_files_dirs :
    ∀ fs : FS, FS.clean fs → ∀ (cfg : Config) (p : String) (d : Nat)
      (x : Node), cfg.exclude_hidden = false → cfg.max_depth = none →
      cfg.include_files = true → get_structure cfg p fs d = some x →
      (count_items x).files + (count_items x).directories =
        1 + fs.totalEntries := by
  refine fs_strong_ind ?_
  intro fs ih hclean cfg p d x hex hmd hif hx
  have hcut : ∀ d' : Nat, depth_cutoff cfg.max_depth d' = false := by
    intro d'
    rw [hmd]
    rfl
  match fs, hclean, ih with
  | FS.file s, _, _ =>
      rw [get_structure_file (hcut d)] at hx
      injection hx with hx
      subst hx
      rw [count_items, count_list, count_items, count_list, FS.totalEntries]
      simp
  | FS.denied, hclean, _ => cases hclean
  | FS.broken m, hclean, _ => cases hclean
  | FS.dir entries, hclean, ih =>
      rw [get_structure_dir (hcut d)] at hx
      injection hx with hx
      subst hx
      rw [FS.clean] at hclean
      rw [count_items, FS.totalEntries]
      have key : ∀ l : List (String × FS),
          (∀ pr ∈ l, pr.2.clean ∧ sizeOf pr.2 < sizeOf (FS.dir entries)) →
          (count_list (children_of cfg p l d)).files +
            (count_list (children_of cfg p l d)).directories =
            totalEntriesList l := by
        intro l
        induction l with
        | nil =>
            intro _
            rw [children_of_nil, count_list, totalEntriesList]
            rfl
        | cons pr rest ihl =>
            intro hok
            obtain ⟨n, sub⟩ := pr
            obtain ⟨hcl, hsz⟩ := hok (n, sub) (List.mem_cons_self _ _)
            rw [children_of_cons, count_list_append, totalEntriesList]
            have hrest := ihl (fun e he => hok e (List.mem_cons_of_mem _ he))
            rw [entryNodes]
            rw [if_neg (by rw [hex]; simp)]
            by_cases hd' : sub.isdir = true
            · rw [if_pos hd']
              obtain ⟨cs', hy⟩ :=
                @get_structure_total cfg (pyJoin p n) sub (d + 1)
                  (hcut (d + 1))
              rw [hy]
              have hsub := ih sub hsz hcl cfg (pyJoin p n) (d + 1) _ hex hmd hif hy
              simp only [Option.toList_some, count_list, count_list] at *
              omega
            · rw [if_neg hd']
              rw [if_pos hif]
              have hfile : sub.totalEntries = 0 := by
                cases sub with
                | file s => rw [FS.totalEntries]
                | dir es => exact absurd (by rw [FS.isdir]) hd'
                | denied => exact absurd (by rw [FS.isdir]) hd'
                | broken m => exact absurd (by rw [FS.isdir]) hd'
              rw [count_list, count_items, count_list]
              simp only [count_list] at hrest
              simp
              omega
      have hmain := key (sortEntries entries) ?_
      · rw [totalEntriesList_sortEntries] at hmain
        simp only [count_list] at hmain ⊢
        omega
      · intro pr hpr
        obtain ⟨n, sub⟩ := pr
        have hmem : (n, sub) ∈ entries := mem_sortEntries.mp hpr
        exact ⟨cleanList_mem hclean hmem, sizeOf_snd_lt_entries hmem⟩

/-- C7.  `get_summary` counts each node of the tree exactly once by
kind (equal to the per-kind counts over the pre-order flattening), and
for a clean directory (no hidden entries, `excludeHidden = false`,
`includeFiles = true`, no depth limit, no enumeration failures) the
files plus directories of the summary equal the number of reachable
entries plus one for the root. -/
theorem c7_theorem :
    (∀ x : Node, get_summary x =
      ⟨x.allNodes.countP Node.isdirN, x.allNodes.countP Node.isFileN,
        x.allNodes.countP Node.isErrN⟩) ∧
    (∀ (fs : FS) (cfg : Config) (p : String) (x : Node),
        cfg.exclude_hidden = false → cfg.max_depth = none →
        cfg.include_files = true → FS.noHidden fs → FS.clean fs →
        get_structure cfg p fs 0 = some x →
        (get_summary x).files + (get_summary x).directories =
          1 + fs.totalEntries) := by
  constructor
  · intro x
    rw [get_summary]
    exact count_eq_countP x
  · intro fs cfg p x hex hmd hif hnh hcl hx
    rw [get_summary]
    exact count_files_dirs fs hcl cfg p 0 x hex hmd hif hx

/-- Witness for C7 on a two-level directory with three entries. -/
theorem c7_witness :
    (get_summary (Node.dir "root" "root"
        [Node.dir "sub" "root/sub"
          [Node.file "c.txt" "root/sub/c.txt" 2],
         Node.file "a.txt" "root/a.txt" 1])).files +
      (get_summary (Node.dir "root" "root"
        [Node.dir "sub" "root/sub"
          [Node.file "c.txt" "root/sub/c.txt" 2],
         Node.file "a.txt" "root/a.txt" 1])).directories =
      1 + (FS.dir [("a.txt", FS.file 1),
        ("sub", FS.dir [("c.txt", FS.file 2)])]).totalEntries :=
  c7_theorem.2
    (FS.dir [("a.txt", FS.file 1), ("sub", FS.dir [("c.txt", FS.file 2)])])
    ⟨false, none, true⟩ "root"
    (Node.dir "root" "root"
      [Node.dir "sub" "root/sub" [Node.file "c.txt" "root/sub/c.txt" 2],
       Node.file "a.txt" "root/a.txt" 1])
    rfl rfl rfl
    (by rw [FS.noHidden, noHiddenList, noHiddenList, noHiddenList]
        exact ⟨by decide, ⟨⟩, by decide,
          by rw [FS.noHidden, noHiddenList, noHiddenList]
             exact ⟨by decide, ⟨⟩, ⟨⟩⟩, ⟨⟩⟩)
    (by rw [FS.clean, cleanList, cleanList, cleanList]
        exact ⟨⟨⟩, by rw [FS.clean, cleanList, cleanList]; exact ⟨⟨⟩, ⟨⟩⟩, ⟨⟩⟩)
    (by simp [get_structure, children_of, depth_cutoff, sortEntries,
      entry_le, entryKey, keyLt, FS.isdir, is_hidden, basename, pyJoin,
      afterLastSlash, pyLower, charListLt, FS.getsize, List.mergeSort])

/-- The renderer prints one line per node of the pre-order
flattening. -/
theorem print_structure_length :
    ∀ x : Node, ∀ (pre : String) (b s : Bool),
      (print_structure x pre b s).length = x.allNodes.length := by
  refine node_strong_ind ?_
  intro x ih pre b s
  match x, ih with
  | Node.error n p, _ =>
      rw [print_structure, allNodes_error]
      rfl
  | Node.file n p sz, _ =>
      rw [print_structure, allNodes_file]
      rfl
  | Node.dir n p cs, ih =>
      rw [print_structure, allNodes_dir]
      simp only [List.length_cons]
      have key : ∀ l : List Node,
          (∀ c ∈ l, sizeOf c < sizeOf (Node.dir n p cs)) → ∀ pre' : String,
          (print_children l pre' s).length = (allNodesList l).length := by
        intro l
        induction l with
        | nil =>
            intro _ pre'
            rw [print_children, allNodesList]
            rfl
        | cons c rest ihl =>
            intro hsz pre'
            rw [print_children, allNodesList, List.length_append,
              List.length_append,
              ih c (hsz c (List.mem_cons_self _ _)) pre' rest.isEmpty s,
              ihl (fun e he => hsz e (List.mem_cons_of_mem _ he)) pre']
      rw [key cs (fun c hc => sizeOf_mem_children hc) _]

/-- C8.  The renderer: an error node prints `<prefix>└── <message>`
regardless of `is_last`; a non-error node prints
`<prefix><connector><label>` with connector `└── ` when last and
`├── ` otherwise; children get the prefix extended by four spaces after
a last node and by `│   ` otherwise, the last-child flag holding
exactly for the final child; and rendering emits one line per node of
the pre-order flattening. -/
theorem c8_theorem :
    (∀ (n p pre : String) (b s : Bool),
        print_structure (Node.error n p) pre b s =
          [pre ++ "└── " ++ n]) ∧
    (∀ (n p pre : String) (sz : Nat) (b s : Bool),
        print_structure (Node.file n p sz) pre b s =
          [pre ++ (if b then "└── " else "├── ") ++ n]) ∧
    (∀ (n p pre : String) (cs : List Node) (b s : Bool),
        print_structure (Node.dir n p cs) pre b s =
          (pre ++ (if b then "└── " else "├── ") ++
            (if s then n ++ " (" ++ p ++ ")" else n)) ::
          print_children cs (pre ++ (if b then "    " else "│   ")) s) ∧
    (∀ (c : Node) (rest : List Node) (pre : String) (s : Bool),
        print_children (c :: rest) pre s =
          print_structure c pre rest.isEmpty s ++
          print_children rest pre s) ∧
    (∀ (x : Node) (pre : String) (b s : Bool),
        (print_structure x pre b s).length = x.allNodes.length) := by
  refine ⟨?_, ?_, ?_, ?_, ?_⟩
  · intro n p pre b s
    rw [print_structure]
  · intro n p pre sz b s
    rw [print_structure]
  · intro n p pre cs b s
    rw [print_structure]
  · intro c rest pre s
    rw [print_children]
  · exact print_structure_length

/-- The structured export is lossless: reading back the exported
mapping yields the original tree. -/
theorem ofJson_toJson : ∀ x : Node, ofJson (toJson x) = some x := by
  refine node_strong_ind ?_
  intro x ih
  match x, ih with
  | Node.error n p, _ =>
      rw [toJson, ofJson]
  | Node.file n p sz, _ =>
      rw [toJson, ofJson]
  | Node.dir n p cs, ih =>
      rw [toJson, ofJson]
      have key : ∀ l : List Node,
          (∀ c ∈ l, sizeOf c < sizeOf (Node.dir n p cs)) →
          ofJsonList (toJsonList l) = some l := by
        intro l
        induction l with
        | nil =>
            intro _
            rw [toJsonList, ofJsonList]
        | cons c rest ihl =>
            intro hsz
            rw [toJsonList, ofJsonList,
              ih c (hsz c (List.mem_cons_self _ _)),
              ihl (fun e he => hsz e (List.mem_cons_of_mem _ he))]
      rw [key cs (fun c hc => sizeOf_mem_children hc)]
      rfl

/-- C9.  For every tree `build` produces, exporting it as the
structured (JSON) value and reconstructing a tree from that value
yields the original tree exactly: kinds, names, sizes, paths and
children order are all preserved. -/
theorem c9_theorem (cfg : Config) (p : String) (fs : FS) (d : Nat)
    (x : Node) (h : get_structure cfg p fs d = some x) :
    ofJson (toJson x) = some x :=
  ofJson_toJson x

/-- Witness for C9 on a concrete built tree. -/
theorem c9_witness :
    ofJson (toJson (Node.dir "root" "root"
      [Node.file "a.txt" "root/a.txt" 1])) =
      some (Node.dir "root" "root" [Node.file "a.txt" "root/a.txt" 1]) :=
  c9_theorem ⟨true, none, true⟩ "root" (FS.dir [("a.txt", FS.file 1)]) 0 _
    (by simp [get_structure, children_of, depth_cutoff, sortEntries,
      entry_le, entryKey, keyLt, FS.isdir, is_hidden, basename, pyJoin,
      afterLastSlash, pyLower, charListLt, FS.getsize, List.mergeSort])

end Cliver
